import Mathlib

/-!
Verification development for the `bithou.nodetools` module: a shallow
embedding of the node-traversal and reference-discovery utilities into
Lean 4, together with theorems settling the specification claims.

The host application's scene graph is modelled as a function from node
identifiers (natural numbers) to node records.  Host accessor methods
(`isBypassed`, `inputs`, `outputs`, `isHardLocked`, `isLockedHDA`,
`childTypeCategory`, `renderNode`, `displayNode`, `node(path)`,
`parm(path)`, ...) become record fields; an accessor that may be absent
on some node types (raising `AttributeError` in the source) is modelled
as an `Option` field, `none` meaning the attribute is missing.  Strings
are ASCII; the generator `traverse` is modelled with explicit fuel, so
that non-termination of the source shows up as an unbounded number of
produced levels.  Each construction additionally records the path of a
node whenever `find_node_references` is invoked for it (the
`computedPath` log); this instrumentation is write-only and never
influences control flow, it only makes the memoization behaviour
observable.
-/

namespace Bithou

/-- Node type categories of the host application (`hou.objNodeTypeCategory()`
and friends).  Only the categories the module distinguishes are named. -/
inductive Category where
  | obj
  | sop
  | dop
  | vop
  | other
deriving DecidableEq, Repr

/-- A keyframe on a parameter.  `slopeUsed = none` models a keyframe class
without the `isSlopeUsed` method (`AttributeError` in the source). -/
structure Keyframe where
  slopeUsed : Option Bool
deriving DecidableEq, Repr

/-- A parameter (`hou.Parm`).  `owner` is the id of `parm.node()`;
`refParmNode = some m` models `parm.getReferencedParm()` returning a parm
different from `parm` whose `.node()` is `m`, and `none` models
`getReferencedParm()` returning `parm` itself. -/
structure Parm where
  owner : Nat
  keyframes : List Keyframe
  expression : String
  isStringType : Bool
  unexpandedString : String
  evalStr : String
  refParmNode : Option Nat
deriving DecidableEq, Repr

/-- A node of the host scene graph (`hou.Node`).  `bypassedAttr = none`
models a node class without `isBypassed`; `hardLockedAttr = none` one
without `isHardLocked`.  `inputs`/`outputs` may contain `none` holes
(`None` entries in the source, filtered by `if x`).  `resolveNode` models
`node.node(path)` and `resolveParm` models `node.parm(path)` returning the
owner node of the found parm. -/
structure NodeData where
  path : String
  bypassedAttr : Option Bool
  hardLockedAttr : Option Bool
  inputs : List (Option Nat)
  outputs : List (Option Nat)
  lockedHDA : Bool
  manager : Bool
  category : Category
  childCategory : Option Category
  typeName : String
  outputConnIdx : List Int
  children : List Nat
  outputidx : Int
  renderNode : Nat
  displayNode : Nat
  parms : List Parm
  resolveNode : String → Option Nat
  resolveParm : String → Option Nat

/-- The scene graph: node data for every node id. -/
def World := Nat → NodeData

/-- The global `_traversed` dictionary: insertion-ordered association list
from node paths to reference lists. -/
abbrev Memo := List (String × List Nat)

/-- Dictionary lookup on the memo. -/
def lookupMemo : Memo → String → Option (List Nat)
  | [], _ => none
  | (k, v) :: m, p => if k = p then some v else lookupMemo m p

/-- Dictionary write: replace the first binding of the key, else append. -/
def updateAssoc : Memo → String → List Nat → Memo
  | [], k, v => [(k, v)]
  | (k', v') :: m, k, v =>
      if k' = k then (k, v) :: m else (k', v') :: updateAssoc m k v

/-- `dict.update`: fold the entries of the second dict into the first. -/
def memoUpdate (m : Memo) (entries : Memo) : Memo :=
  entries.foldl (fun acc e => updateAssoc acc e.1 e.2) m

/-- Insert an element at the back unless already present (deterministic
model of adding one element to a Python `set`, keeping insertion order). -/
def insertUnique (rs : List Nat) (n : Nat) : List Nat :=
  if n ∈ rs then rs else rs ++ [n]

/-- `set.update`: insert every element of `l`, keeping first-insertion
order. -/
def insertAll (rs : List Nat) (l : List Nat) : List Nat :=
  l.foldl insertUnique rs

/-- Python whitespace characters (the complement of `\S` in `re`). -/
def isPySpace (c : Char) : Bool :=
  c = ' ' || c = '\t' || c = '\n' || c = '\r' || c = '\x0c' || c = '\x0b'

/-- ASCII word characters (`\w` in `re`). -/
def isWordChar (c : Char) : Bool :=
  ('a' ≤ c && c ≤ 'z') || ('A' ≤ c && c ≤ 'Z') || ('0' ≤ c && c ≤ '9') || c = '_'

/-- Characters admitted by the class `[\w/\.\-\@\:\?\$\#]` of
`file_pattern`. -/
def isFileChar (c : Char) : Bool :=
  isWordChar c || c = '/' || c = '.' || c = '-' || c = '@' || c = ':' ||
    c = '?' || c = '$' || c = '#'

/-- Position of the closing quote for a greedy match of `([\S]+)"` inside
the maximal non-whitespace run `t` that follows an opening quote: the
largest `k ≥ 1` with `t[k] = '"'` (the group is then `t.take k`).
`none` means the match attempt at this opening quote fails. -/
def lastQuotePos (t : List Char) : Option Nat :=
  (List.range t.length).reverse.find? (fun k => decide (1 ≤ k) && (t[k]? == some '"'))

/-- Fuelled scanner for `re.findall` of `expr_node_pattern`, the compiled
regex `"([\S\\.]+)"` (whose character class is just `\S`): left-to-right,
non-overlapping, greedy matches; on a failed attempt the scan resumes one
character after the opening quote.  The fuel only needs to exceed the
input length. -/
def findTokensF : Nat → List Char → List (List Char)
  | 0, _ => []
  | _ + 1, [] => []
  | fuel + 1, c :: rest =>
      if c = '"' then
        match lastQuotePos (rest.takeWhile (fun d => !isPySpace d)) with
        | some k =>
            (rest.takeWhile (fun d => !isPySpace d)).take k ::
              findTokensF fuel (rest.drop (k + 1))
        | none => findTokensF fuel rest
      else findTokensF fuel rest

/-- `expr_node_pattern.findall(expr)`: the captured groups, in order. -/
def findTokens (cs : List Char) : List (List Char) :=
  findTokensF cs.length cs

/-- Resolve one captured token the way `find_parm_references` does:
first `node.node(ref)`, else `node.parm(ref).node()`, else nothing. -/
def resolveToken (nd : NodeData) (ref : String) : Option Nat :=
  match nd.resolveNode ref with
  | some n => some n
  | none => nd.resolveParm ref

/-- Resolve every token found in an expression text, keeping order and
dropping unresolvable tokens (the `for ref in ... findall(expr)` loop). -/
def tokensResolve (nd : NodeData) (expr : String) : List Nat :=
  (findTokens expr.toList).filterMap (fun t => resolveToken nd (String.mk t))

/-- `has_expression(parm)`: exactly one keyframe and that keyframe does not
use slopes; a keyframe without `isSlopeUsed` counts as not using slopes. -/
def has_expression (p : Parm) : Bool :=
  match p.keyframes with
  | [k] => !(k.slopeUsed.getD false)
  | _ => false

/-- `find_parm_references(parm)`: nodes referenced by one parameter. -/
def find_parm_references (w : World) (p : Parm) : List Nat :=
  match p.refParmNode with
  | some rn => [rn]
  | none =>
      let nd := w p.owner
      if has_expression p then
        tokensResolve nd p.expression
      else if p.isStringType then
        let expr := p.unexpandedString
        let val := p.evalStr
        if expr = val then
          match nd.resolveNode val with
          | some rn => [rn]
          | none =>
              match nd.resolveParm val with
              | some rp => [rp]
              | none => tokensResolve nd expr
        else tokensResolve nd expr
      else []

/-- Deterministic model of `list(set(..))` accumulation: duplicates are
dropped, first occurrences keep their order. -/
def dedupFirst (l : List Nat) : List Nat :=
  insertAll [] l

/-- `find_node_references(node)`: union of the references of all parms. -/
def find_node_references (w : World) (n : Nat) : List Nat :=
  dedupFirst (((w n).parms.map (find_parm_references w)).flatten)

/-- The reference list `_get_references` computes for a node: its parm
references with the node itself removed. -/
def self_filtered_references (w : World) (n : Nat) : List Nat :=
  (find_node_references w n).filter (fun m => m ≠ n)

/-- `get_output_nodes(node, only_connected)`: `output`-type children of a
SOP-container node, optionally restricted to connected output indices. -/
def get_output_nodes (w : World) (node : Nat) (only_connected : Bool) : List Nat :=
  if !((w node).childCategory == some Category.sop) then []
  else
    (w node).children.filter (fun n =>
      (w n).typeName == "output" &&
        (!only_connected || (w node).outputConnIdx.contains (w n).outputidx))

/-- `get_child_output(node, only_connected)`: inner output nodes if any,
otherwise the render node (SOP), the display node (DOP), or nothing. -/
def get_child_output (w : World) (node : Nat) (only_connected : Bool) : List Nat :=
  let outputs := get_output_nodes w node only_connected
  if outputs ≠ [] then outputs
  else if (w node).childCategory == some Category.sop then [(w node).renderNode]
  else if (w node).childCategory == some Category.dop then [(w node).displayNode]
  else []

/-- `NodeTraverse._get_references`, instrumented.  Returns the reference
list, the entry written into `self.traversed`, and `some path` exactly
when `find_node_references` was invoked.  `cache = true` is the source
behaviour (consult the global `_traversed` dict, recomputing when the
cached list is empty); `cache = false` is the reference variant that
recomputes every time but still records the visited path. -/
def get_references (cache : Bool) (w : World) (n : Nat) (memo : Memo) :
    List Nat × Memo × Option String :=
  let p := (w n).path
  let cached := if cache then (lookupMemo memo p).getD [] else []
  if cached = [] then
    let rs := self_filtered_references w n
    (rs, [(p, rs)], some p)
  else (cached, [], none)

/-- The state of a `NodeTraverse` object after `__init__`. -/
structure NodeTraverse where
  node : Nat
  inputs : List Nat
  outputs : List Nat
  connected : List Nat
  ignore_hda_locked : Bool
  ignore_categories : List Category
  references : List Nat
  traversed : Memo
  computedPath : Option String
  child_output : List Nat
  to_traverse : List Nat
deriving DecidableEq

/-- `NodeTraverse.__init__`:  non-null inputs, hard-lock filtering with the
`AttributeError` fallback (the whole filter is skipped when some input
lacks `isHardLocked`), bypass handling, reference collection, child-output
collection for nodes that are not locked HDAs, and the `to_traverse`
list `references + inputs + child_output`. -/
def mkNodeTraverse (cache : Bool) (w : World) (memo : Memo) (node : Nat)
    (respect_bypass respect_lock ignore_hda_locked : Bool)
    (ignore_categories : List Category) : NodeTraverse :=
  let nd := w node
  let bypassed := nd.bypassedAttr.getD false
  let inputs0 := nd.inputs.filterMap id
  let inputs :=
    if respect_lock then
      if inputs0.all (fun x => ((w x).hardLockedAttr).isSome) then
        inputs0.filter (fun x => !((w x).hardLockedAttr.getD false))
      else inputs0
    else inputs0
  let outputs := nd.outputs.filterMap id
  let ics :=
    if Category.vop ∈ ignore_categories then ignore_categories
    else ignore_categories ++ [Category.vop]
  let refsTriple :=
    if bypassed && respect_bypass then ([], ([], none))
    else get_references cache w node memo
  let child_output := if !nd.lockedHDA then get_child_output w node true else []
  { node := node
    inputs := inputs
    outputs := outputs
    connected := inputs ++ outputs
    ignore_hda_locked := ignore_hda_locked
    ignore_categories := ics
    references := refsTriple.1
    traversed := refsTriple.2.1
    computedPath := refsTriple.2.2
    child_output := child_output
    to_traverse := refsTriple.1 ++ inputs ++ child_output }

/-- A state of the `traverse` loop: the current `roots` (an
insertion-ordered set) and the global `_traversed` dict. -/
structure TState where
  roots : List Nat
  memo : Memo
deriving DecidableEq

/-- The inner `for t in traversed` loop of `traverse`: filter each
`to_traverse` against the keys of the evolving dict, merge the per-object
`traversed` entries, and accumulate the next roots. -/
def foldTrav (w : World) : List NodeTraverse → Memo → List Nat → Memo × List Nat
  | [], m, rs => (m, rs)
  | t :: ts, m, rs =>
      let keep := t.to_traverse.filter (fun n => lookupMemo m (w n).path = none)
      foldTrav w ts (memoUpdate m t.traversed) (insertAll rs keep)

/-- One expansion step of `traverse` (one iteration of the `while` loop in
the `skip_root = True` regime).  Produces the next state and the log of
paths whose references were freshly computed. -/
def stepLevel (cache : Bool) (w : World)
    (rb rl ih : Bool) (ic : List Category) (s : TState) : TState × List String :=
  let ts := (s.roots.filter (fun r => !(w r).manager)).map
    (fun r => mkNodeTraverse cache w s.memo r rb rl ih ic)
  let mr := foldTrav w ts s.memo []
  (⟨mr.2, mr.1⟩, ts.filterMap (fun t => t.computedPath))

/-- Iterate `stepLevel` while `roots` is non-empty, yielding each new
`roots` set, for at most `fuel` iterations; the second component collects
the reference-computation log. -/
def levelsFrom (cache : Bool) (w : World) (rb rl ih : Bool) (ic : List Category) :
    TState → Nat → List (List Nat) × List String
  | _, 0 => ([], [])
  | s, fuel + 1 =>
      if s.roots = [] then ([], [])
      else
        (((stepLevel cache w rb rl ih ic s).1.roots ::
            (levelsFrom cache w rb rl ih ic (stepLevel cache w rb rl ih ic s).1 fuel).1),
          (stepLevel cache w rb rl ih ic s).2 ++
            (levelsFrom cache w rb rl ih ic (stepLevel cache w rb rl ih ic s).1 fuel).2)

/-- `traverse(root, ...)`: the generator, as the list of the first `fuel`
yielded levels together with the reference-computation log.  The global
`_traversed` dict starts cleared; with `include_root` the first yielded
level is `(root,)` and no expansion happens for it. -/
def traverseC (cache : Bool) (w : World) (rb rl ih : Bool) (ic : List Category)
    (root : Nat) (include_root : Bool) (fuel : Nat) : List (List Nat) × List String :=
  if include_root then
    match fuel with
    | 0 => ([], [])
    | f + 1 =>
        (([root] :: (levelsFrom cache w rb rl ih ic ⟨[root], []⟩ f).1),
          (levelsFrom cache w rb rl ih ic ⟨[root], []⟩ f).2)
  else levelsFrom cache w rb rl ih ic ⟨[root], []⟩ fuel

/-- The source's `traverse`: memoized (`cache = true`), levels only. -/
def traverse (w : World) (rb rl ih : Bool) (ic : List Category)
    (root : Nat) (include_root : Bool) (fuel : Nat) : List (List Nat) :=
  (traverseC true w rb rl ih ic root include_root fuel).1

/-- Strip the single trailing newline that Python's `$` anchor tolerates. -/
def stripNl (cs : List Char) : List Char :=
  if cs.getLast? = some '\n' then cs.dropLast else cs

/-- Core of `file_pattern.match`: does `^[\w/\.\-\@\:\?\$\#]*\.\w+$` match
the whole character list (no trailing-newline allowance here)?  Matches
exactly when every character is admitted by the class, the maximal word
suffix is non-empty, and it is preceded by a dot. -/
def fileMatchCore (cs : List Char) : Bool :=
  cs.all isFileChar &&
    !(cs.reverse.takeWhile isWordChar).isEmpty &&
    ((cs.reverse.dropWhile isWordChar).head? == some '.')

/-- `is_valid_file(value)`: `False` for `None` and for the empty string,
otherwise `bool(file_pattern.match(value))`, where the `$` anchor also
matches just before one trailing newline. -/
def is_valid_file (value : Option String) : Bool :=
  match value with
  | none => false
  | some s =>
      if s.toList.isEmpty then false
      else fileMatchCore (stripNl s.toList)

/-! ### Concrete scene graphs used by witnesses and counterexamples -/

/-- A node with no connections, no parms, no children: every optional host
attribute present with its default value. -/
def blankNode (p : String) : NodeData where
  path := p
  bypassedAttr := some false
  hardLockedAttr := some false
  inputs := []
  outputs := []
  lockedHDA := false
  manager := false
  category := Category.obj
  childCategory := none
  typeName := ""
  outputConnIdx := []
  children := []
  outputidx := 0
  renderNode := 0
  displayNode := 0
  parms := []
  resolveNode := fun _ => none
  resolveParm := fun _ => none

/-- Graph for the C1 counterexample: node 0 has an output connection to
node 1 and nothing else. -/
def wOut : World := fun n =>
  if n = 0 then { blankNode "/a" with outputs := [some 1] }
  else blankNode "/b"

/-- Graph for the C1 witness: node 0 has node 1 as input. -/
def wIn : World := fun n =>
  if n = 0 then { blankNode "/r" with inputs := [some 1] }
  else blankNode "/i"

/-- Graph for the C2 evidence: node 0 has the VOP-category node 1 as
input. -/
def wVop : World := fun n =>
  if n = 0 then { blankNode "/r" with inputs := [some 1] }
  else { blankNode "/v" with category := Category.vop }

/-- Graph for the C4 evidence: a two-node input cycle whose nodes are both
bypassed, so neither ever enters the `_traversed` dict. -/
def wCyc : World := fun n =>
  if n = 0 then { blankNode "/a" with bypassedAttr := some true, inputs := [some 1] }
  else { blankNode "/b" with bypassedAttr := some true, inputs := [some 0] }

/-- Graph for the C5 counterexample: node 0 has inputs 1 and 2, node 1 has
input 2, node 2 has nothing.  Node 2 enters level two legitimately, is
re-listed there by its sibling 1 before its own memo entry is merged, and
is therefore expanded again in level three, where the empty cached
reference list triggers a second `find_node_references` call. -/
def wSib : World := fun n =>
  if n = 0 then { blankNode "/p" with inputs := [some 1, some 2] }
  else if n = 1 then { blankNode "/m" with inputs := [some 2] }
  else blankNode "/n"

/-- Constant graph for the C5 witness: every id maps to the same isolated
node. -/
def wConst : World := fun _ => blankNode "/x"

/-- Graph for the C6 witness: node 0 is bypassed and has node 1 as
input. -/
def wByp : World := fun n =>
  if n = 0 then { blankNode "/bp" with bypassedAttr := some true, inputs := [some 1] }
  else blankNode "/q"

/-- Graph for the C7 witness: node 0 lacks `isBypassed`, and its input
node 1 lacks `isHardLocked`. -/
def wAttr : World := fun n =>
  if n = 0 then { blankNode "/na" with bypassedAttr := none, inputs := [some 1] }
  else { blankNode "/ni" with hardLockedAttr := none }

/-- Graph for the C9 witness: node 0 is a SOP container with a connected
`output`-type child node 1. -/
def wSop : World := fun n =>
  if n = 0 then
    { blankNode "/s" with
        childCategory := some Category.sop
        children := [1]
        outputConnIdx := [0] }
  else { blankNode "/s/out1" with typeName := "output", outputidx := 0 }

/-- Keyframe without the `isSlopeUsed` attribute, for the C7 witness. -/
def kfNoSlope : Keyframe := ⟨none⟩

/-- Parm with the single attribute-less keyframe, for the C7 witness. -/
def pmKf : Parm where
  owner := 5
  keyframes := [kfNoSlope]
  expression := ""
  isStringType := false
  unexpandedString := ""
  evalStr := ""
  refParmNode := none

/-- Parm for the C8 witness: carries an expression with two double-quoted
tokens, one resolvable as a relative node path, one resolvable as
nothing. -/
def pmExpr : Parm where
  owner := 0
  keyframes := [⟨some false⟩]
  expression := "ch(\"../foo\") + ch(\"nope\")"
  isStringType := false
  unexpandedString := ""
  evalStr := ""
  refParmNode := none

/-- Graph for the C8 witness: every node resolves the relative path
`../foo` to node 7 and nothing else. -/
def wExpr : World := fun _ =>
  { blankNode "/e" with resolveNode := fun s => if s = "../foo" then some 7 else none }

/-- The validity predicate exactly as claim C10 words it: non-empty, only
word characters and the symbols `/ . - @ : ? $ #`, and a trailing dot
followed by at least one word character — with no allowance for a
trailing newline.  Used only to compare against the implementation. -/
def c10_claimed (value : Option String) : Bool :=
  match value with
  | none => false
  | some s =>
      !s.toList.isEmpty && s.toList.all isFileChar &&
        !(s.toList.reverse.takeWhile isWordChar).isEmpty &&
        ((s.toList.reverse.dropWhile isWordChar).head? == some '.')

/-- Nodes that share a path have the same self-filtered reference list.
In the host application paths are unique node identifiers, so this always
holds there; in the model it is the hypothesis under which the global
per-path cache is meaningful. -/
def PathRefsConsistent (w : World) : Prop :=
  ∀ a b : Nat, (w a).path = (w b).path →
    self_filtered_references w a = self_filtered_references w b

/-- Every binding of the memo maps a path to the self-filtered reference
list of the nodes carrying that path. -/
def MemoFaithful (w : World) (m : Memo) : Prop :=
  ∀ p rs, lookupMemo m p = some rs →
    ∀ b : Nat, (w b).path = p → self_filtered_references w b = rs

/-! ### Theorems -/

/-- C2: evidence of the code bug.  `ignore_categories` is populated (the
VOP category is appended to the empty list) and stored, but the VOP-
category node 1 is nevertheless yielded in the first level and expanded
in the second (its path `/v` appears in the reference-computation log):
the stored list is never consulted by the traversal. -/
theorem c2_vop_not_filtered :
    (mkNodeTraverse true wVop [] 0 true true true []).ignore_categories = [Category.vop] ∧
    (wVop 1).category = Category.vop ∧
    (traverseC true wVop true true true [] 0 false 3).1 = [[1], []] ∧
    (traverseC true wVop true true true [] 0 false 3).2 = ["/r", "/v"] := by
  decide

/-- C6: traversal respects the bypass flag.  For a node whose
`isBypassed()` returns `True`: with `respect_bypass` the reference list is
empty and `to_traverse` consists of the inputs followed by the child
outputs only; without `respect_bypass` the references are collected
normally through `_get_references`. -/
theorem c6_respect_bypass (cache : Bool) (w : World) (m : Memo) (n : Nat)
    (rl ihl : Bool) (ic : List Category)
    (h : (w n).bypassedAttr = some true) :
    (mkNodeTraverse cache w m n true rl ihl ic).references = [] ∧
    (mkNodeTraverse cache w m n true rl ihl ic).to_traverse =
      (mkNodeTraverse cache w m n true rl ihl ic).inputs ++
        (mkNodeTraverse cache w m n true rl ihl ic).child_output ∧
    (mkNodeTraverse cache w m n false rl ihl ic).references =
      (get_references cache w n m).1 := by
  simp [mkNodeTraverse, h]

/-- C6 witness: the bypassed node 0 of `wByp`, traversed with
`respect_bypass`, follows no references; its input is still followed. -/
theorem c6_respect_bypass_witness :
    (mkNodeTraverse true wByp [] 0 true true true []).references = [] ∧
    (mkNodeTraverse true wByp [] 0 true true true []).to_traverse =
      (mkNodeTraverse true wByp [] 0 true true true []).inputs ++
        (mkNodeTraverse true wByp [] 0 true true true []).child_output ∧
    (mkNodeTraverse false wByp [] 0 false true true []).references =
      (get_references false wByp 0 []).1 :=
  ⟨(c6_respect_bypass true wByp [] 0 true true [] rfl).1,
    (c6_respect_bypass true wByp [] 0 true true [] rfl).2.1,
    (c6_respect_bypass false wByp [] 0 true true [] rfl).2.2⟩

/-- C7: the three `AttributeError` fallbacks.  A node without `isBypassed`
is treated as not bypassed (its references are collected even under
`respect_bypass`); when some input lacks `isHardLocked` the whole lock
filter is skipped and every non-null input is kept; a keyframe without
`isSlopeUsed` is treated as not using slopes, so a parm with one such
keyframe counts as carrying an expression. -/
theorem c7_attribute_fallbacks (cache : Bool) (w : World) (m : Memo) (n : Nat)
    (rb ihl : Bool) (ic : List Category) (k : Keyframe) (p : Parm)
    (h1 : (w n).bypassedAttr = none)
    (h2 : ((w n).inputs.filterMap id).any (fun x => ((w x).hardLockedAttr).isNone) = true)
    (h3 : k.slopeUsed = none) (h4 : p.keyframes = [k]) :
    (mkNodeTraverse cache w m n rb true ihl ic).references =
      (get_references cache w n m).1 ∧
    (mkNodeTraverse cache w m n rb true ihl ic).inputs =
      (w n).inputs.filterMap id ∧
    has_expression p = true := by
  have hall : (((w n).inputs.filterMap id).all
      (fun x => ((w x).hardLockedAttr).isSome)) = false := by
    rcases List.any_eq_true.mp h2 with ⟨x, hx, hN⟩
    refine List.all_eq_false.mpr ⟨x, hx, ?_⟩
    simp only [Option.isNone_iff_eq_none] at hN
    simp [hN]
  refine ⟨?_, ?_, ?_⟩
  · simp [mkNodeTraverse, h1]
  · simp [mkNodeTraverse, hall]
  · simp [has_expression, h4, h3]

/-- C7 witness: on `wAttr`, node 0 (no `isBypassed`) with its attribute-
less input, plus the slope-less keyframe parm `pmKf`; all three fallbacks
fire. -/
theorem c7_attribute_fallbacks_witness :
    (mkNodeTraverse true wAttr [] 0 true true true []).references =
      (get_references true wAttr 0 []).1 ∧
    (mkNodeTraverse true wAttr [] 0 true true true []).inputs =
      (wAttr 0).inputs.filterMap id ∧
    has_expression pmKf = true :=
  c7_attribute_fallbacks true wAttr [] 0 true true [] kfNoSlope pmKf rfl
    (by decide) rfl rfl

/-- C9: category special-casing of `get_child_output`.  When
`get_output_nodes` finds output nodes the child category is necessarily
SOP and they are returned; otherwise the render node is returned for SOP,
the display node for DOP, and nothing for every other child category. -/
theorem c9_child_output_cases (w : World) (n : Nat) :
    get_child_output w n true =
      (if get_output_nodes w n true = [] then
        (if (w n).childCategory = some Category.sop then [(w n).renderNode]
          else if (w n).childCategory = some Category.dop then [(w n).displayNode]
          else [])
      else get_output_nodes w n true) ∧
    (get_output_nodes w n true ≠ [] →
      (w n).childCategory = some Category.sop) := by
  constructor
  · by_cases h : get_output_nodes w n true = []
    · simp [get_child_output, h]
    · simp [get_child_output, h]
  · intro h
    by_contra hc
    apply h
    simp [get_output_nodes, hc]

/-- C9 witness: on `wSop` node 0 has the connected inner output node 1:
`get_child_output` returns the inner outputs, and their existence forces
the SOP child category. -/
theorem c9_child_output_cases_witness :
    get_child_output wSop 0 true =
      (if get_output_nodes wSop 0 true = [] then
        (if (wSop 0).childCategory = some Category.sop then [(wSop 0).renderNode]
          else if (wSop 0).childCategory = some Category.dop then [(wSop 0).displayNode]
          else [])
      else get_output_nodes wSop 0 true) ∧
    (wSop 0).childCategory = some Category.sop :=
  ⟨(c9_child_output_cases wSop 0).1, (c9_child_output_cases wSop 0).2 (by decide)⟩

/-- C1: counterexample.  Node 1 is connected to the traversed non-manager
node 0 through an output connection, its path was never traversed, yet
the next yielded level is empty: output-connected nodes do not appear in
the next level (`self.outputs` is collected into `self.connected` but
never added to `to_traverse`). -/
theorem c1_outputs_not_traversed :
    (wOut 0).outputs = [some 1] ∧
    (wOut 0).manager = false ∧
    lookupMemo ((stepLevel true wOut true true true [] ⟨[0], []⟩).1.memo)
      ((wOut 1).path) = none ∧
    (stepLevel true wOut true true true [] ⟨[0], []⟩).1.roots = [] ∧
    traverse wOut true true true [] 0 false 3 = [[]] := by
  decide

/-- C5: counterexample.  In `wSib`, node 2 is expanded at level two and —
because its sibling 1 re-listed it before node 2's memo entry was merged
— again at level three, where the cached empty reference list triggers a
fresh computation: `find_node_references` runs twice for the path `/n`,
refuting "computed at most once". -/
theorem c5_reference_recomputed :
    ((traverseC true wSib true true true [] 0 false 5).2).count "/n" = 2 ∧
    (traverseC true wSib true true true [] 0 false 5).1 = [[1, 2], [2], []] := by
  decide

/-- On the bypassed two-cycle `wCyc` the traversal alternates between the
two singleton states forever: `fuel` iterations yield exactly `fuel`
levels, all non-empty. -/
theorem wCyc_levels_unbounded : ∀ fuel : Nat,
    (((levelsFrom true wCyc true true true [] ⟨[0], []⟩ fuel).1.length = fuel) ∧
      ∀ L ∈ (levelsFrom true wCyc true true true [] ⟨[0], []⟩ fuel).1, L ≠ []) ∧
    (((levelsFrom true wCyc true true true [] ⟨[1], []⟩ fuel).1.length = fuel) ∧
      ∀ L ∈ (levelsFrom true wCyc true true true [] ⟨[1], []⟩ fuel).1, L ≠ []) := by
  intro fuel
  induction fuel with
  | zero => simp [levelsFrom]
  | succ f ihf =>
    have h0 : stepLevel true wCyc true true true [] ⟨[0], []⟩ = (⟨[1], []⟩, []) := by
      decide
    have h1 : stepLevel true wCyc true true true [] ⟨[1], []⟩ = (⟨[0], []⟩, []) := by
      decide
    refine ⟨⟨?_, ?_⟩, ?_, ?_⟩
    · simp [levelsFrom, h0, ihf.2.1]
    · intro L hL
      simp only [levelsFrom] at hL
      rw [if_neg (by decide)] at hL
      rw [h0] at hL
      rcases List.mem_cons.mp hL with h | h
      · subst h; decide
      · exact ihf.2.2 L h
    · simp [levelsFrom, h1, ihf.1.1]
    · intro L hL
      simp only [levelsFrom] at hL
      rw [if_neg (by decide)] at hL
      rw [h1] at hL
      rcases List.mem_cons.mp hL with h | h
      · subst h; decide
      · exact ihf.1.2 L h

/-- C4: code-bug evidence.  On the finite cyclic graph `wCyc` — a two-node
input cycle whose nodes are both bypassed and traversed with
`respect_bypass` — the generator yields arbitrarily many levels, all
non-empty: a bypassed node never calls `_get_references`, so its path
never enters `_traversed` and the visited check never prunes the cycle;
the traversal does not terminate. -/
theorem c4_unbounded_levels : ∀ N : Nat, ∃ fuel : Nat,
    N < ((traverseC true wCyc true true true [] 0 false fuel).1).length ∧
    ((traverseC true wCyc true true true [] 0 false fuel).1.all
      (fun L => !L.isEmpty)) = true := by
  intro N
  have h := wCyc_levels_unbounded (N + 1)
  have he : traverseC true wCyc true true true [] 0 false (N + 1) =
      levelsFrom true wCyc true true true [] ⟨[0], []⟩ (N + 1) := by
    simp [traverseC]
  refine ⟨N + 1, ?_, ?_⟩
  · rw [he, h.1.1]; omega
  · rw [he]
    refine List.all_eq_true.mpr (fun L hL => ?_)
    have := h.1.2 L hL
    simpa [List.isEmpty_eq_false] using this

/-- A successful `lastQuotePos` search returns an index at least `1` whose
character is the closing quote. -/
theorem lastQuotePos_spec (t : List Char) (k : Nat) (h : lastQuotePos t = some k) :
    1 ≤ k ∧ t[k]? = some '"' := by
  have hp := List.find?_some h
  simp only [Bool.and_eq_true, decide_eq_true_eq, beq_iff_eq] at hp
  exact hp

/-- Every group captured by the token scanner is non-empty and contains no
whitespace. -/
theorem findTokensF_sound : ∀ (fuel : Nat) (cs t : List Char),
    t ∈ findTokensF fuel cs → t ≠ [] ∧ ∀ c ∈ t, isPySpace c = false := by
  intro fuel
  induction fuel with
  | zero => intro cs t ht; simp [findTokensF] at ht
  | succ f ihf =>
    intro cs t ht
    match cs with
    | [] => simp [findTokensF] at ht
    | c :: rest =>
      simp only [findTokensF] at ht
      by_cases hc : c = '"'
      · rw [if_pos hc] at ht
        cases hq : lastQuotePos (rest.takeWhile fun d => !isPySpace d) with
        | none => rw [hq] at ht; exact ihf _ _ ht
        | some k =>
          rw [hq] at ht
          rcases List.mem_cons.mp ht with h | h
          · subst h
            obtain ⟨hk1, hk2⟩ := lastQuotePos_spec _ _ hq
            have hklen : k < (rest.takeWhile fun d => !isPySpace d).length := by
              by_contra hge
              push_neg at hge
              rw [List.getElem?_eq_none hge] at hk2
              cases hk2
            constructor
            · intro hemp
              rcases List.take_eq_nil_iff.mp hemp with h | h
              · omega
              · rw [h] at hklen; simp at hklen
            · intro ch hch
              have hmem : ch ∈ rest.takeWhile fun d => !isPySpace d :=
                List.mem_of_mem_take hch
              have := List.mem_takeWhile_imp hmem
              simpa using this
          · exact ihf _ _ h
      · rw [if_neg hc] at ht; exact ihf _ _ ht

/-- C8: regex-based reference parsing.  For a parm that does not reference
another parm and that carries an expression, `find_parm_references`
resolves, in order of occurrence, each double-quoted token of the
expression text — first as a node path relative to the parm's node, then
as a parm path yielding that parm's node — and drops tokens that resolve
to neither; every captured token is a non-empty whitespace-free chunk of
the expression. -/
theorem c8_parm_reference_parsing (w : World) (p : Parm)
    (h1 : p.refParmNode = none) (h2 : has_expression p = true) :
    find_parm_references w p =
      (findTokens p.expression.toList).filterMap
        (fun t => resolveToken (w p.owner) (String.mk t)) ∧
    ∀ t ∈ findTokens p.expression.toList,
      t ≠ [] ∧ ∀ c ∈ t, isPySpace c = false := by
  constructor
  · simp [find_parm_references, h1, h2, tokensResolve]
  · intro t ht
    exact findTokensF_sound _ _ t ht

/-- C8 witness: on `wExpr` the parm expression
`ch("../foo") + ch("nope")` captures the two tokens `../foo` and `nope`;
the first resolves to node 7, the second to nothing, so exactly `[7]` is
returned. -/
theorem c8_parm_reference_parsing_witness :
    find_parm_references wExpr pmExpr =
      (findTokens pmExpr.expression.toList).filterMap
        (fun t => resolveToken (wExpr pmExpr.owner) (String.mk t)) ∧
    find_parm_references wExpr pmExpr = [7] :=
  ⟨(c8_parm_reference_parsing wExpr pmExpr rfl (by decide)).1, by decide⟩

/-- `takeWhile` walks through a prefix on which the predicate holds
everywhere. -/
theorem takeWhile_append_of_all {α : Type} (p : α → Bool) :
    ∀ (a b : List α), (∀ x ∈ a, p x = true) →
      (a ++ b).takeWhile p = a ++ b.takeWhile p := by
  intro a b h
  induction a with
  | nil => simp
  | cons x a iha =>
    have hx : p x = true := h x (by simp)
    simp only [List.cons_append, List.takeWhile_cons, hx, if_true]
    rw [iha (fun y hy => h y (by simp [hy]))]

/-- `dropWhile` discards a prefix on which the predicate holds
everywhere. -/
theorem dropWhile_append_of_all {α : Type} (p : α → Bool) :
    ∀ (a b : List α), (∀ x ∈ a, p x = true) →
      (a ++ b).dropWhile p = b.dropWhile p := by
  intro a b h
  induction a with
  | nil => simp
  | cons x a iha =>
    have hx : p x = true := h x (by simp)
    simp only [List.cons_append, List.dropWhile_cons, hx, if_true]
    exact iha (fun y hy => h y (by simp [hy]))

/-- The language of the anchored regex `^[\w/\.\-\@\:\?\$\#]*\.\w+$`:
every character admitted by the class, and a final dot-plus-word-suffix
decomposition. -/
theorem fileMatchCore_iff (cs : List Char) :
    fileMatchCore cs = true ↔
      (∀ c ∈ cs, isFileChar c = true) ∧
      ∃ p w, cs = p ++ '.' :: w ∧ w ≠ [] ∧ ∀ c ∈ w, isWordChar c = true := by
  unfold fileMatchCore
  simp only [Bool.and_eq_true, List.all_eq_true, Bool.not_eq_true',
    List.isEmpty_eq_false, beq_iff_eq]
  constructor
  · rintro ⟨⟨hall, hne⟩, hdot⟩
    refine ⟨hall, ?_⟩
    obtain ⟨d', hd⟩ : ∃ d', cs.reverse.dropWhile isWordChar = '.' :: d' := by
      cases hcase : cs.reverse.dropWhile isWordChar with
      | nil => rw [hcase] at hdot; simp at hdot
      | cons x xs =>
        rw [hcase] at hdot
        simp only [List.head?_cons, Option.some.injEq] at hdot
        exact ⟨xs, by rw [hdot]⟩
    refine ⟨d'.reverse, (cs.reverse.takeWhile isWordChar).reverse, ?_, ?_, ?_⟩
    · conv_lhs => rw [← cs.reverse_reverse,
        ← List.takeWhile_append_dropWhile (p := isWordChar) (l := cs.reverse)]
      rw [hd]
      simp [List.reverse_append]
    · simpa using hne
    · intro c hcm
      have hmem : c ∈ cs.reverse.takeWhile isWordChar := by simpa using hcm
      exact List.mem_takeWhile_imp hmem
  · rintro ⟨hall, p, w, hcs, hw, hword⟩
    have hrev : cs.reverse = w.reverse ++ '.' :: p.reverse := by
      rw [hcs]; simp [List.reverse_append]
    have hwrev : ∀ x ∈ w.reverse, isWordChar x = true := by
      intro x hx; exact hword x (by simpa using hx)
    have hdotw : isWordChar '.' = false := by decide
    refine ⟨⟨hall, ?_⟩, ?_⟩
    · rw [hrev, takeWhile_append_of_all isWordChar _ _ hwrev,
        List.takeWhile_cons_of_neg (by simp [hdotw])]
      simpa using hw
    · rw [hrev, dropWhile_append_of_all isWordChar _ _ hwrev,
        List.dropWhile_cons_of_neg (by simp [hdotw])]
      rfl

/-- C10 (amended): full characterization of `is_valid_file`.  `None` and
the empty value are rejected; a non-empty string is accepted exactly when
the string, after discarding at most one trailing newline, consists only
of word characters and the symbols `/ . - @ : ? $ #` and ends with a dot
followed by at least one word character. -/
theorem c10_characterization (v : Option String) :
    is_valid_file v = true ↔
      ∃ s, v = some s ∧ (∀ c ∈ stripNl s.toList, isFileChar c = true) ∧
        ∃ p w, stripNl s.toList = p ++ '.' :: w ∧ w ≠ [] ∧
          ∀ c ∈ w, isWordChar c = true := by
  cases v with
  | none => simp [is_valid_file]
  | some s =>
    simp only [is_valid_file, Option.some.injEq]
    by_cases hemp : s.toList.isEmpty
    · rw [if_pos hemp]
      have hnil : s.toList = [] := by simpa using hemp
      constructor
      · intro h; cases h
      · rintro ⟨s', hs', _, pfx, w, hdec, hw, _⟩
        subst hs'
        rw [hnil] at hdec
        simp [stripNl] at hdec
    · rw [if_neg hemp]
      constructor
      · intro h
        exact ⟨s, rfl, (fileMatchCore_iff _).mp h⟩
      · rintro ⟨s', hs', hprop⟩
        subst hs'
        exact (fileMatchCore_iff _).mpr hprop

/-- C10: counterexample.  The string `"a.b\n"` contains whitespace (a
trailing newline), so the claim as stated rejects it, but
`file_pattern.match` accepts it because Python's `$` anchor also matches
just before a trailing newline. -/
theorem c10_trailing_newline :
    is_valid_file (some "a.b\x0a") = true ∧
    c10_claimed (some "a.b\x0a") = false ∧
    isPySpace '\x0a' = true := by
  decide

/-- Looking a key up after a dictionary write sees the written value at
that key and the old dictionary elsewhere. -/
theorem lookupMemo_updateAssoc (m : Memo) (k : String) (v : List Nat) (q : String) :
    lookupMemo (updateAssoc m k v) q = if k = q then some v else lookupMemo m q := by
  induction m with
  | nil => simp [updateAssoc, lookupMemo]
  | cons e m ihm =>
    obtain ⟨k', v'⟩ := e
    by_cases h : k' = k
    · subst h
      by_cases hq : k' = q
      · simp [updateAssoc, lookupMemo, hq]
      · simp [updateAssoc, lookupMemo, hq]
    · by_cases hq : k' = q
      · subst hq
        have hk : ¬k = k' := fun he => h he.symm
        simp [updateAssoc, lookupMemo, h, hk]
      · simp [updateAssoc, lookupMemo, h, hq, ihm]

/-- Writing a binding the dictionary already holds leaves it unchanged. -/
theorem updateAssoc_self (m : Memo) (k : String) (v : List Nat)
    (h : lookupMemo m k = some v) : updateAssoc m k v = m := by
  induction m with
  | nil => simp [lookupMemo] at h
  | cons e m ihm =>
    obtain ⟨k', v'⟩ := e
    by_cases hk : k' = k
    · subst hk
      have h' : v' = v := by simpa [lookupMemo] using h
      simp [updateAssoc, h']
    · simp only [lookupMemo, if_neg hk] at h
      simp [updateAssoc, hk, ihm h]

/-- `dict.update` with no entries is the identity. -/
theorem memoUpdate_nil (m : Memo) : memoUpdate m [] = m := rfl

/-- `dict.update` with one entry is a single write. -/
theorem memoUpdate_singleton (m : Memo) (k : String) (v : List Nat) :
    memoUpdate m [(k, v)] = updateAssoc m k v := rfl

/-- A key present before a `dict.update` is still present after it. -/
theorem lookupMemo_memoUpdate_ne_none : ∀ (es m : Memo) (q : String),
    lookupMemo m q ≠ none → lookupMemo (memoUpdate m es) q ≠ none := by
  intro es
  induction es with
  | nil => intro m q h; exact h
  | cons e es ihe =>
    intro m q h
    have hstep : lookupMemo (updateAssoc m e.1 e.2) q ≠ none := by
      rw [lookupMemo_updateAssoc]
      by_cases hq : e.1 = q
      · simp [hq]
      · rw [if_neg hq]; exact h
    exact ihe _ _ hstep

/-- `insertAll` on an empty batch is the identity. -/
theorem insertAll_nil (rs : List Nat) : insertAll rs [] = rs := rfl

/-- `insertAll` peels one batch element at a time. -/
theorem insertAll_cons (rs : List Nat) (y : Nat) (l : List Nat) :
    insertAll rs (y :: l) = insertAll (insertUnique rs y) l := rfl

/-- Elements of the accumulator survive `insertAll`. -/
theorem mem_insertAll_left : ∀ (l rs : List Nat) (x : Nat),
    x ∈ rs → x ∈ insertAll rs l := by
  intro l
  induction l with
  | nil => intro rs x h; exact h
  | cons y l ihl =>
    intro rs x h
    rw [insertAll_cons]
    apply ihl
    unfold insertUnique
    by_cases hy : y ∈ rs
    · rw [if_pos hy]; exact h
    · rw [if_neg hy]; exact List.mem_append_left _ h

/-- Batch elements end up in the `insertAll` result. -/
theorem mem_insertAll_right : ∀ (l rs : List Nat) (x : Nat),
    x ∈ l → x ∈ insertAll rs l := by
  intro l
  induction l with
  | nil => intro rs x h; cases h
  | cons y l ihl =>
    intro rs x h
    rw [insertAll_cons]
    rcases List.mem_cons.mp h with h | h
    · subst h
      apply mem_insertAll_left
      unfold insertUnique
      by_cases hy : x ∈ rs
      · rw [if_pos hy]; exact hy
      · rw [if_neg hy]; exact List.mem_append_right _ (by simp)
    · exact ihl _ _ h

/-- Accumulated next-level roots survive the rest of the inner loop. -/
theorem foldTrav_roots_mono (w : World) : ∀ (ts : List NodeTraverse)
    (m : Memo) (rs : List Nat) (x : Nat),
    x ∈ rs → x ∈ (foldTrav w ts m rs).2 := by
  intro ts
  induction ts with
  | nil => intro m rs x h; exact h
  | cons t ts iht =>
    intro m rs x h
    simp only [foldTrav]
    exact iht _ _ _ (mem_insertAll_left _ _ _ h)

/-- Keys present in the dict survive the rest of the inner loop. -/
theorem foldTrav_memo_mono (w : World) : ∀ (ts : List NodeTraverse)
    (m : Memo) (rs : List Nat) (q : String),
    lookupMemo m q ≠ none → lookupMemo (foldTrav w ts m rs).1 q ≠ none := by
  intro ts
  induction ts with
  | nil => intro m rs q h; exact h
  | cons t ts iht =>
    intro m rs q h
    simp only [foldTrav]
    exact iht _ _ _ (lookupMemo_memoUpdate_ne_none _ _ _ h)

/-- Every `to_traverse` successor of every object of the inner loop either
joins the next roots or has its path recorded in the dict by the time the
loop finishes. -/
theorem foldTrav_covers (w : World) : ∀ (ts : List NodeTraverse)
    (m : Memo) (rs : List Nat) (t : NodeTraverse),
    t ∈ ts → ∀ n ∈ t.to_traverse,
    n ∈ (foldTrav w ts m rs).2 ∨
      lookupMemo (foldTrav w ts m rs).1 (w n).path ≠ none := by
  intro ts
  induction ts with
  | nil => intro m rs t ht; cases ht
  | cons t' ts iht =>
    intro m rs t ht n hn
    rcases List.mem_cons.mp ht with he | he
    · subst he
      simp only [foldTrav]
      by_cases hl : lookupMemo m (w n).path = none
      · left
        apply foldTrav_roots_mono
        apply mem_insertAll_right
        exact List.mem_filter.mpr ⟨hn, by simp [hl]⟩
      · right
        apply foldTrav_memo_mono
        exact lookupMemo_memoUpdate_ne_none _ _ _ hl
    · simp only [foldTrav]
      exact iht _ _ t he n hn

/-- C1 (amended): breadth-wise level expansion.  Every successor of a
non-manager node of the current level — a parameter reference, a
surviving input, or a child output node, i.e. a member of `to_traverse` —
either appears in the next yielded level or has its path recorded in the
global traversed map once the expansion of the level completes.  (Output
connections are absent from `to_traverse`; see the counterexample.) -/
theorem c1_level_expansion (w : World) (rb rl ihl : Bool) (ic : List Category)
    (s : TState) (r n : Nat)
    (hr : r ∈ s.roots) (hm : (w r).manager = false)
    (hn : n ∈ (mkNodeTraverse true w s.memo r rb rl ihl ic).to_traverse) :
    n ∈ (stepLevel true w rb rl ihl ic s).1.roots ∨
      lookupMemo ((stepLevel true w rb rl ihl ic s).1.memo) ((w n).path) ≠ none := by
  have hmem : mkNodeTraverse true w s.memo r rb rl ihl ic ∈
      (s.roots.filter (fun x => !(w x).manager)).map
        (fun x => mkNodeTraverse true w s.memo x rb rl ihl ic) :=
    List.mem_map_of_mem _ (List.mem_filter.mpr ⟨hr, by simp [hm]⟩)
  have h := foldTrav_covers w _ s.memo [] _ hmem n hn
  simpa [stepLevel] using h

/-- C1 witness: in `wIn`, the input successor 1 of the traversed root 0
lands in the next level (or is memoized) after one expansion step. -/
theorem c1_level_expansion_witness :
    1 ∈ (stepLevel true wIn true true true [] ⟨[0], []⟩).1.roots ∨
      lookupMemo ((stepLevel true wIn true true true [] ⟨[0], []⟩).1.memo)
        ((wIn 1).path) ≠ none :=
  c1_level_expansion wIn true true true [] ⟨[0], []⟩ 0 1 (by decide) rfl (by decide)

/-- The inner loop depends on its objects only through `to_traverse` and
`traversed`. -/
theorem foldTrav_congr (w : World) : ∀ (ts1 ts2 : List NodeTraverse),
    ts1.map (fun t => (t.to_traverse, t.traversed)) =
      ts2.map (fun t => (t.to_traverse, t.traversed)) →
    ∀ (m : Memo) (rs : List Nat), foldTrav w ts1 m rs = foldTrav w ts2 m rs := by
  intro ts1
  induction ts1 with
  | nil =>
    intro ts2 h m rs
    cases ts2 with
    | nil => rfl
    | cons t ts => simp at h
  | cons t ts iht =>
    intro ts2 h m rs
    cases ts2 with
    | nil => simp at h
    | cons t2 ts2 =>
      simp only [List.map_cons, List.cons.injEq, Prod.mk.injEq] at h
      obtain ⟨⟨h1, h2⟩, h3⟩ := h
      simp only [foldTrav]
      rw [h1, h2]
      exact iht ts2 h3 _ _

/-- One expansion step is unchanged when `ignore_hda_locked` flips: the
flag is stored on each `NodeTraverse` but never read. -/
theorem stepLevel_flag_invariant (cache : Bool) (w : World) (rb rl : Bool)
    (ic : List Category) (s : TState) :
    stepLevel cache w rb rl true ic s = stepLevel cache w rb rl false ic s := by
  simp only [stepLevel]
  have hfold :
      foldTrav w ((s.roots.filter (fun r => !(w r).manager)).map
        (fun r => mkNodeTraverse cache w s.memo r rb rl true ic)) s.memo [] =
      foldTrav w ((s.roots.filter (fun r => !(w r).manager)).map
        (fun r => mkNodeTraverse cache w s.memo r rb rl false ic)) s.memo [] := by
    apply foldTrav_congr
    simp only [List.map_map]
    rfl
  have hlog :
      ((s.roots.filter (fun r => !(w r).manager)).map
        (fun r => mkNodeTraverse cache w s.memo r rb rl true ic)).filterMap
          (fun t => t.computedPath) =
      ((s.roots.filter (fun r => !(w r).manager)).map
        (fun r => mkNodeTraverse cache w s.memo r rb rl false ic)).filterMap
          (fun t => t.computedPath) := by
    rw [List.filterMap_map, List.filterMap_map]
    rfl
  rw [hfold, hlog]

/-- The whole level sequence is unchanged when `ignore_hda_locked`
flips. -/
theorem levelsFrom_flag_invariant (cache : Bool) (w : World) (rb rl : Bool)
    (ic : List Category) : ∀ (fuel : Nat) (s : TState),
    levelsFrom cache w rb rl true ic s fuel =
      levelsFrom cache w rb rl false ic s fuel := by
  intro fuel
  induction fuel with
  | zero => intro s; rfl
  | succ f ihf =>
    intro s
    by_cases hr : s.roots = []
    · simp [levelsFrom, hr]
    · simp only [levelsFrom, if_neg hr]
      rw [stepLevel_flag_invariant, ihf]

/-- C3: code-bug evidence.  `ignore_hda_locked` has no observable effect:
the `NodeTraverse` built with the flag on agrees with the one built with
the flag off in its references, child outputs and `to_traverse`, and the
full traversal (levels and reference-computation log alike) is identical
for both flag values — the stored attribute is never consulted.  Child
outputs are skipped purely according to `node.isLockedHDA()`. -/
theorem c3_hda_flag_unused :
    (∀ (cache : Bool) (w : World) (m : Memo) (n : Nat) (rb rl : Bool)
      (ic : List Category),
      (mkNodeTraverse cache w m n rb rl true ic).references =
        (mkNodeTraverse cache w m n rb rl false ic).references ∧
      (mkNodeTraverse cache w m n rb rl true ic).child_output =
        (mkNodeTraverse cache w m n rb rl false ic).child_output ∧
      (mkNodeTraverse cache w m n rb rl true ic).to_traverse =
        (mkNodeTraverse cache w m n rb rl false ic).to_traverse) ∧
    (∀ (cache : Bool) (w : World) (rb rl : Bool) (ic : List Category)
      (root : Nat) (inc : Bool) (fuel : Nat),
      traverseC cache w rb rl true ic root inc fuel =
        traverseC cache w rb rl false ic root inc fuel) := by
  constructor
  · intro cache w m n rb rl ic
    exact ⟨rfl, rfl, rfl⟩
  · intro cache w rb rl ic root inc fuel
    cases inc with
    | false =>
      simpa [traverseC] using
        levelsFrom_flag_invariant cache w rb rl ic fuel ⟨[root], []⟩
    | true =>
      cases fuel with
      | zero => rfl
      | succ f =>
        simp [traverseC, levelsFrom_flag_invariant cache w rb rl ic f ⟨[root], []⟩]

/-- The empty dict is vacuously faithful. -/
theorem mf_empty (w : World) : MemoFaithful w [] := by
  intro p rs h
  simp [lookupMemo] at h

/-- Writing a node's own self-filtered reference list under its path keeps
the dict faithful, provided nodes sharing a path share references. -/
theorem mf_update (w : World) (H : PathRefsConsistent w) {m : Memo}
    (hm : MemoFaithful w m) (a : Nat) :
    MemoFaithful w (updateAssoc m (w a).path (self_filtered_references w a)) := by
  intro p rs hl b hb
  rw [lookupMemo_updateAssoc] at hl
  by_cases hp : (w a).path = p
  · rw [if_pos hp] at hl
    have hv : self_filtered_references w a = rs := by injection hl
    rw [← hv]
    exact H b a (by rw [hb, ← hp])
  · rw [if_neg hp] at hl
    exact hm p rs hl b hb

/-- The `references` field unfolded: empty when the bypass skip fires,
otherwise whatever `_get_references` returns. -/
theorem mk_references (cache : Bool) (w : World) (m : Memo) (n : Nat)
    (rb rl ihl : Bool) (ic : List Category) :
    (mkNodeTraverse cache w m n rb rl ihl ic).references =
      (if ((w n).bypassedAttr.getD false) && rb then (([], ([], none))
          : List Nat × Memo × Option String)
        else get_references cache w n m).1 := rfl

/-- The `traversed` field unfolded. -/
theorem mk_traversed (cache : Bool) (w : World) (m : Memo) (n : Nat)
    (rb rl ihl : Bool) (ic : List Category) :
    (mkNodeTraverse cache w m n rb rl ihl ic).traversed =
      (if ((w n).bypassedAttr.getD false) && rb then (([], ([], none))
          : List Nat × Memo × Option String)
        else get_references cache w n m).2.1 := rfl

/-- `to_traverse` is the references followed by the surviving inputs and
the child outputs. -/
theorem mk_to_traverse (cache : Bool) (w : World) (m : Memo) (n : Nat)
    (rb rl ihl : Bool) (ic : List Category) :
    (mkNodeTraverse cache w m n rb rl ihl ic).to_traverse =
      (mkNodeTraverse cache w m n rb rl ihl ic).references ++
        (mkNodeTraverse cache w m n rb rl ihl ic).inputs ++
        (mkNodeTraverse cache w m n rb rl ihl ic).child_output := rfl

/-- The per-object `traversed` dict is empty or the single binding of the
node's own path to its self-filtered references. -/
theorem mk_traversed_shape (cache : Bool) (w : World) (m : Memo) (n : Nat)
    (rb rl ihl : Bool) (ic : List Category) :
    (mkNodeTraverse cache w m n rb rl ihl ic).traversed = [] ∨
      (mkNodeTraverse cache w m n rb rl ihl ic).traversed =
        [((w n).path, self_filtered_references w n)] := by
  rw [mk_traversed]
  by_cases hb : (((w n).bypassedAttr.getD false) && rb) = true
  · left; rw [if_pos hb]
  · rw [if_neg hb]
    unfold get_references
    by_cases hc : (if cache then (lookupMemo m (w n).path).getD [] else []) = []
    · right; simp [hc]
    · left; simp [hc]

/-- Under a faithful dict, caching does not change the computed reference
list of any node. -/
theorem mk_cache_refs_eq (w : World) {m0 : Memo} (hm0 : MemoFaithful w m0)
    (n : Nat) (rb rl ihl : Bool) (ic : List Category) :
    (mkNodeTraverse true w m0 n rb rl ihl ic).references =
      (mkNodeTraverse false w m0 n rb rl ihl ic).references := by
  rw [mk_references, mk_references]
  by_cases hb : (((w n).bypassedAttr.getD false) && rb) = true
  · rw [if_pos hb, if_pos hb]
  · rw [if_neg hb, if_neg hb]
    cases hl : lookupMemo m0 (w n).path with
    | none => simp [get_references, hl]
    | some rs =>
      by_cases hrs : rs = []
      · subst hrs; simp [get_references, hl]
      · have hv : self_filtered_references w n = rs := hm0 _ _ hl n rfl
        simp [get_references, hl, hrs, hv]

/-- Under a faithful dict, caching does not change `to_traverse`
either. -/
theorem mk_cache_tt_eq (w : World) {m0 : Memo} (hm0 : MemoFaithful w m0)
    (n : Nat) (rb rl ihl : Bool) (ic : List Category) :
    (mkNodeTraverse true w m0 n rb rl ihl ic).to_traverse =
      (mkNodeTraverse false w m0 n rb rl ihl ic).to_traverse := by
  rw [mk_to_traverse, mk_to_traverse, mk_cache_refs_eq w hm0 n rb rl ihl ic]
  rfl

/-- Presence of keys is preserved by a single write. -/
theorem mono_after_update (m0 m : Memo) (k : String) (v : List Nat)
    (hmono : ∀ q, lookupMemo m0 q ≠ none → lookupMemo m q ≠ none) :
    ∀ q, lookupMemo m0 q ≠ none → lookupMemo (updateAssoc m k v) q ≠ none := by
  intro q hq
  rw [lookupMemo_updateAssoc]
  by_cases hk : k = q
  · simp [hk]
  · rw [if_neg hk]; exact hmono q hq

/-- Core equivalence of the inner loop: starting from a faithful dict that
contains every key of the construction-time dict `m0`, running the loop on
the memoized `NodeTraverse` objects and on the recomputing ones produces
the same dict and the same next roots. -/
theorem foldTrav_cache_eq (w : World) (H : PathRefsConsistent w)
    (rb rl ihl : Bool) (ic : List Category) (m0 : Memo)
    (hm0 : MemoFaithful w m0) :
    ∀ (ns : List Nat) (m : Memo) (rs : List Nat),
      MemoFaithful w m →
      (∀ q, lookupMemo m0 q ≠ none → lookupMemo m q ≠ none) →
      foldTrav w (ns.map (fun r => mkNodeTraverse true w m0 r rb rl ihl ic)) m rs =
        foldTrav w (ns.map (fun r => mkNodeTraverse false w m0 r rb rl ihl ic)) m rs := by
  intro ns
  induction ns with
  | nil => intro m rs _ _; rfl
  | cons r ns ihn =>
    intro m rs hm hmono
    simp only [List.map_cons, foldTrav]
    rw [mk_cache_tt_eq w hm0 r rb rl ihl ic]
    by_cases hb : (((w r).bypassedAttr.getD false) && rb) = true
    · have h1 : (mkNodeTraverse true w m0 r rb rl ihl ic).traversed = [] := by
        rw [mk_traversed, if_pos hb]
      have h2 : (mkNodeTraverse false w m0 r rb rl ihl ic).traversed = [] := by
        rw [mk_traversed, if_pos hb]
      rw [h1, h2, memoUpdate_nil]
      exact ihn m _ hm hmono
    · cases hl : lookupMemo m0 (w r).path with
      | none =>
        have h1 : (mkNodeTraverse true w m0 r rb rl ihl ic).traversed =
            [((w r).path, self_filtered_references w r)] := by
          rw [mk_traversed, if_neg hb]; simp [get_references, hl]
        have h2 : (mkNodeTraverse false w m0 r rb rl ihl ic).traversed =
            [((w r).path, self_filtered_references w r)] := by
          rw [mk_traversed, if_neg hb]; simp [get_references]
        rw [h1, h2, memoUpdate_singleton]
        exact ihn _ _ (mf_update w H hm r)
          (mono_after_update m0 m _ _ hmono)
      | some rs0 =>
        by_cases hrs : rs0 = []
        · subst hrs
          have h1 : (mkNodeTraverse true w m0 r rb rl ihl ic).traversed =
              [((w r).path, self_filtered_references w r)] := by
            rw [mk_traversed, if_neg hb]; simp [get_references, hl]
          have h2 : (mkNodeTraverse false w m0 r rb rl ihl ic).traversed =
              [((w r).path, self_filtered_references w r)] := by
            rw [mk_traversed, if_neg hb]; simp [get_references]
          rw [h1, h2, memoUpdate_singleton]
          exact ihn _ _ (mf_update w H hm r)
            (mono_after_update m0 m _ _ hmono)
        · have h1 : (mkNodeTraverse true w m0 r rb rl ihl ic).traversed = [] := by
            rw [mk_traversed, if_neg hb]; simp [get_references, hl, hrs]
          have h2 : (mkNodeTraverse false w m0 r rb rl ihl ic).traversed =
              [((w r).path, self_filtered_references w r)] := by
            rw [mk_traversed, if_neg hb]; simp [get_references]
          have hkey : lookupMemo m (w r).path ≠ none := by
            apply hmono
            rw [hl]
            simp
          obtain ⟨rs1, hrs1⟩ : ∃ v, lookupMemo m (w r).path = some v := by
            cases hx : lookupMemo m (w r).path with
            | none => exact absurd hx hkey
            | some v => exact ⟨v, rfl⟩
          have hv : self_filtered_references w r = rs1 := hm _ _ hrs1 r rfl
          have hid : updateAssoc m (w r).path (self_filtered_references w r) = m := by
            rw [hv]
            exact updateAssoc_self _ _ _ hrs1
          rw [h1, h2, memoUpdate_nil, memoUpdate_singleton, hid]
          exact ihn m _ hm hmono

/-- The inner loop preserves faithfulness of the dict (given shape-correct
per-object entries). -/
theorem foldTrav_preserves_faithful (w : World) (H : PathRefsConsistent w) :
    ∀ (ts : List NodeTraverse) (m : Memo) (rs : List Nat),
      (∀ t ∈ ts, t.traversed = [] ∨
        ∃ a, t.traversed = [((w a).path, self_filtered_references w a)]) →
      MemoFaithful w m →
      MemoFaithful w (foldTrav w ts m rs).1 := by
  intro ts
  induction ts with
  | nil => intro m rs _ hm; exact hm
  | cons t ts iht =>
    intro m rs hshape hm
    simp only [foldTrav]
    apply iht _ _ (fun t' ht' => hshape t' (List.mem_cons_of_mem _ ht'))
    rcases hshape t (List.mem_cons_self _ _) with h | ⟨a, h⟩
    · rw [h, memoUpdate_nil]; exact hm
    · rw [h, memoUpdate_singleton]; exact mf_update w H hm a

/-- One memoized expansion step equals one recomputing expansion step on a
faithful dict. -/
theorem stepLevel_cache_eq (w : World) (H : PathRefsConsistent w)
    (rb rl ihl : Bool) (ic : List Category) (s : TState)
    (hm : MemoFaithful w s.memo) :
    (stepLevel true w rb rl ihl ic s).1 = (stepLevel false w rb rl ihl ic s).1 := by
  simp only [stepLevel]
  rw [foldTrav_cache_eq w H rb rl ihl ic s.memo hm
    (s.roots.filter (fun r => !(w r).manager)) s.memo [] hm (fun _ h => h)]

/-- Expansion steps keep the dict faithful. -/
theorem stepLevel_preserves_faithful (w : World) (H : PathRefsConsistent w)
    (cache : Bool) (rb rl ihl : Bool) (ic : List Category) (s : TState)
    (hm : MemoFaithful w s.memo) :
    MemoFaithful w (stepLevel cache w rb rl ihl ic s).1.memo := by
  simp only [stepLevel]
  apply foldTrav_preserves_faithful w H _ s.memo [] _ hm
  intro t ht
  rcases List.mem_map.mp ht with ⟨r, _, rfl⟩
  rcases mk_traversed_shape cache w s.memo r rb rl ihl ic with h | h
  · exact Or.inl h
  · exact Or.inr ⟨r, h⟩

/-- The memoized level sequence equals the recomputing level sequence from
any faithful state. -/
theorem levelsFrom_cache_eq (w : World) (H : PathRefsConsistent w)
    (rb rl ihl : Bool) (ic : List Category) : ∀ (fuel : Nat) (s : TState),
    MemoFaithful w s.memo →
    (levelsFrom true w rb rl ihl ic s fuel).1 =
      (levelsFrom false w rb rl ihl ic s fuel).1 := by
  intro fuel
  induction fuel with
  | zero => intro s _; rfl
  | succ f ihf =>
    intro s hm
    by_cases hr : s.roots = []
    · simp [levelsFrom, hr]
    · simp only [levelsFrom, if_neg hr]
      have hse := stepLevel_cache_eq w H rb rl ihl ic s hm
      rw [hse]
      have hmn := stepLevel_preserves_faithful w H false rb rl ihl ic s hm
      simpa using ihf (stepLevel false w rb rl ihl ic s).1 hmn

/-- C5 (amended): soundness of the per-path memoization.  Assuming nodes
that share a path share their self-filtered references (true in the host,
where paths are unique), the memoized traversal yields exactly the same
levels as a traversal that recomputes `find_node_references` every time:
every cache hit returns what recomputation would return.  (The "computed
at most once" part of the claim fails; see the counterexample.) -/
theorem c5_memo_equivalence (w : World) (rb rl ihl : Bool) (ic : List Category)
    (root : Nat) (inc : Bool) (fuel : Nat) (H : PathRefsConsistent w) :
    (traverseC true w rb rl ihl ic root inc fuel).1 =
      (traverseC false w rb rl ihl ic root inc fuel).1 := by
  cases inc with
  | false =>
    simpa [traverseC] using
      levelsFrom_cache_eq w H rb rl ihl ic fuel ⟨[root], []⟩ (mf_empty w)
  | true =>
    cases fuel with
    | zero => rfl
    | succ f =>
      simpa [traverseC] using
        levelsFrom_cache_eq w H rb rl ihl ic f ⟨[root], []⟩ (mf_empty w)

/-- C5 witness: on the constant path-consistent graph `wConst` the
memoized and the recomputing traversal produce identical levels. -/
theorem c5_memo_equivalence_witness :
    (traverseC true wConst true true true [] 0 false 3).1 =
      (traverseC false wConst true true true [] 0 false 3).1 :=
  c5_memo_equivalence wConst true true true [] 0 false 3 (fun _ _ _ => rfl)

end Bithou
